import Mathlib

/-
Verification of the alignment-and-correction core of `scanorama/scanorama.py`.

Shallow embedding conventions:
* Point coordinates and kernel values are rationals (exact arithmetic in
  place of IEEE floats); a coordinate row is a `List ℚ` and a matrix a
  `List (List ℚ)`.
* The exponential used by sklearn's `rbf_kernel` is an external library
  function; it is abstracted as a parameter `kexp : ℚ → ℚ` threaded through
  every definition that the source feeds through `rbf_kernel`.
* Nearest-neighbor searches (sklearn `NearestNeighbors`, annoy) are external
  collaborators; functions that consume their output take the produced match
  sets as parameters.
* Python dicts keyed by dataset pairs become functions into `Option`;
  Python sets of index pairs become `Finset (ℕ × ℕ)` where only set algebra
  is performed on them, and `List (ℕ × ℕ)` where the source iterates over
  them and only order-insensitive aggregates are computed from the result.
-/

namespace Scanorama

abbrev Vec := List ℚ
abbrev Mat := List Vec

/-! ### Generic list helpers

`updateFirst f g l` applies `g` to the first element of `l` satisfying `f`,
leaving everything else unchanged.  It models Python's in-place mutation of
the first list returned by a containment filter (`panoramas_i[0].append(..)`
and `panoramas_i[0] += ..` in `connect` and `assemble`), which under the
source's one-owner assertion is the unique panorama containing the index. -/

def updateFirst (f : α → Bool) (g : α → α) : List α → List α
  | [] => []
  | P :: ps => if f P then g P :: ps else P :: updateFirst f g ps

/-- `eraseFirst x l` removes the first element of `l` equal to `x`: Python's
`list.remove(x)` (which compares by value). -/
def eraseFirst [DecidableEq α] (x : α) : List α → List α
  | [] => []
  | a :: l => if a = x then l else a :: eraseFirst x l

/-! ### `mnn` (scanorama.py lines 267-283)

`match1` and `match2` are the directional nearest-neighbor match sets
returned by `nn`/`nn_approx` (external search backends, see module header);
the mutual set is `match1 & set((b, a) for a, b in match2)`. -/

def mnn (match1 match2 : Finset (ℕ × ℕ)) : Finset (ℕ × ℕ) :=
  match1 ∩ match2.image Prod.swap

/-! ### `fill_table` interval lookup (scanorama.py lines 313-342)

`fill_table` builds two interval trees over the concatenation of the
reference datasets: position range `[pos, pos + n_cells)` of dataset `j`
maps to dataset index `base_ds + j` and to the base offset `pos`.  For a
neighbor hit at global offset `r` it queries the trees and asserts that
exactly one interval contains `r`.  `intervalOwners sizes base_ds r` returns
the list of `(dataset index, base offset)` pairs whose interval contains
`r`, in dataset order; its length is the number of intervals the lookup
resolves to. -/

def intervalOwnersAux (base_ds : ℕ) : List ℕ → ℕ → ℕ → ℕ → List (ℕ × ℕ)
  | [], _, _, _ => []
  | s :: rest, j, pos, r =>
    (if pos ≤ r ∧ r < pos + s then [(base_ds + j, pos)] else []) ++
      intervalOwnersAux base_ds rest (j + 1) (pos + s) r

def intervalOwners (sizes : List ℕ) (base_ds r : ℕ) : List (ℕ × ℕ) :=
  intervalOwnersAux base_ds sizes 0 0 r

/-! ### `find_alignments_table` mutualization and scoring
(scanorama.py lines 359-382)

`table` is the populated directional match table: `table (i, j)` holds the
set of `(local index in i, local index in j)` pairs discovered when dataset
`i` was queried against a concatenation containing dataset `j` (`none` when
the key is absent).  `sizes` lists the datasets' row counts.  For `i < j`
with both directions present the source computes
the mutual set `table[(i,j)] & set((b,a) for a,b in table[(j,i)])` and the
score `max(|{a : (a,b) mutual}| / sizes[i], |{b : (a,b) mutual}| / sizes[j])`. -/

def mutualMatches (table : ℕ × ℕ → Option (Finset (ℕ × ℕ))) (i j : ℕ) :
    Option (Finset (ℕ × ℕ)) :=
  match table (i, j), table (j, i) with
  | some mij, some mji => some (mij ∩ mji.image Prod.swap)
  | _, _ => none

def alignmentScore (sizes : List ℕ) (table : ℕ × ℕ → Option (Finset (ℕ × ℕ)))
    (i j : ℕ) : Option ℚ :=
  (mutualMatches table i j).map (fun m =>
    max (((m.image Prod.fst).card : ℚ) / (sizes.getD i 0 : ℚ))
        (((m.image Prod.snd).card : ℚ) / (sizes.getD j 0 : ℚ)))

/-! ### `find_alignments` (scanorama.py lines 385-396)

`table1` is the list of score-table entries `((i, j), score)` in dict
iteration order.  The source sorts ascending by score (Python's stable
sort, modeled by `insertionSort`, also stable), reverses, and keeps the
pairs with score strictly above `alpha`. -/

def scoreLE : ((ℕ × ℕ) × ℚ) → ((ℕ × ℕ) × ℚ) → Prop := fun a b => a.2 ≤ b.2

instance : DecidableRel scoreLE := fun a b => inferInstanceAs (Decidable (a.2 ≤ b.2))

instance : IsTotal ((ℕ × ℕ) × ℚ) scoreLE := ⟨fun a b => le_total a.2 b.2⟩

instance : IsTrans ((ℕ × ℕ) × ℚ) scoreLE := ⟨fun _ _ _ => le_trans⟩

def find_alignments (table1 : List ((ℕ × ℕ) × ℚ)) (alpha : ℚ) : List (ℕ × ℕ) :=
  (((List.insertionSort scoreLE table1).reverse).filter
    (fun e => decide (alpha < e.2))).map Prod.fst

/-! ### `connect` (scanorama.py lines 399-439)

`connectStep` is the body of the loop over alignment edges; `connect` folds
it over the edge list (the output of `find_alignments`) and then appends a
singleton panorama for every dataset index below `n` (the number of
datasets) touched by no edge.  Python compares and removes panorama lists
by value; under the source's one-owner assertions (`len(panoramas_i) <= 1`,
proved below as `panCount` bounds) value operations and the source's object
operations coincide. -/

def connectStep (ps : List (List ℕ)) (i j : ℕ) : List (List ℕ) :=
  match ps.filter (fun P => decide (i ∈ P)), ps.filter (fun P => decide (j ∈ P)) with
  | [], [] => ps ++ [[i, j]]
  | [], _ :: _ => updateFirst (fun P => decide (j ∈ P)) (fun P => P ++ [i]) ps
  | _ :: _, [] => updateFirst (fun P => decide (i ∈ P)) (fun P => P ++ [j]) ps
  | Pi :: _, Pj :: _ =>
    if Pi = Pj then ps
    else eraseFirst Pj (updateFirst (fun P => decide (i ∈ P)) (fun P => P ++ Pj) ps)

def touched (alignments : List (ℕ × ℕ)) (d : ℕ) : Bool :=
  alignments.any (fun e => d = e.1 ∨ d = e.2)

def connect (alignments : List (ℕ × ℕ)) (n : ℕ) : List (List ℕ) :=
  (alignments.foldl (fun ps e => connectStep ps e.1 e.2) []) ++
    (((List.range n).filter (fun d => !touched alignments d)).map (fun d => [d]))

/-- Number of panoramas in `ps` that contain dataset index `d` (the length
of the Python filter `[panoramas[p] for p in range(len(panoramas)) if d in panoramas[p]]`,
which the source asserts is at most 1). -/
def panCount (ps : List (List ℕ)) (d : ℕ) : ℕ :=
  ps.countP (fun P => decide (d ∈ P))

/-! ### `batch_bias` and `transform` (scanorama.py lines 442-485)

`rbf_kernel(X, Y, gamma=0.5*sigma)` has entries
`exp(-0.5 * sigma * ||x - y||^2)`; `kexp` stands for the exponential.
`batch_bias` with `batch_size = none` computes
`dot(weights, bias) / tile(sum(weights, axis=1), ..).T`; with
`batch_size = some B` it accumulates the numerator matrix and the
denominator vector over slices `[t*B, min((t+1)*B, len))` of the matched
rows and divides once at the end (the while loop runs `ceil(len / B)`
times).  Rows of the result are indexed by the moving block `curr_ds`;
columns by the coordinate dimension of the corresponding row. -/

def sqdist (x y : Vec) : ℚ :=
  ((x.zip y).map (fun u => (u.1 - u.2) ^ 2)).sum

def kernelWeight (kexp : ℚ → ℚ) (sigma : ℚ) (x y : Vec) : ℚ :=
  kexp (-(1 / 2 * sigma * sqdist x y))

/-- One output row of the unbatched computation: weights of row `p` against
every matched row, numerator `dot(weights, bias)`, then division by the
weight sum. -/
def rowBias (kexp : ℚ → ℚ) (sigma : ℚ) (p : Vec) (match_ds bias : Mat) : Vec :=
  let ws := match_ds.map (kernelWeight kexp sigma p)
  (List.range p.length).map (fun c =>
    ((ws.zip bias).map (fun u => u.1 * u.2.getD c 0)).sum / ws.sum)

/-- One output row of the batched computation: numerator and denominator
accumulated chunk by chunk, one division at the end. -/
def rowBiasBatched (kexp : ℚ → ℚ) (sigma : ℚ) (B : ℕ) (p : Vec)
    (match_ds bias : Mat) : Vec :=
  let nchunks := (match_ds.length + B - 1) / B
  let den := ((List.range nchunks).map (fun t =>
    (((match_ds.drop (t * B)).take B).map (kernelWeight kexp sigma p)).sum)).sum
  (List.range p.length).map (fun c =>
    ((List.range nchunks).map (fun t =>
      let ws := ((match_ds.drop (t * B)).take B).map (kernelWeight kexp sigma p)
      ((ws.zip ((bias.drop (t * B)).take B)).map (fun u => u.1 * u.2.getD c 0)).sum)).sum
      / den)

def batch_bias (kexp : ℚ → ℚ) (curr_ds match_ds bias : Mat)
    (batch_size : Option ℕ) (sigma : ℚ) : Mat :=
  match batch_size with
  | none => curr_ds.map (fun p => rowBias kexp sigma p match_ds bias)
  | some B => curr_ds.map (fun p => rowBiasBatched kexp sigma B p match_ds bias)

/-- `transform` (lines 469-485): gather the matched rows, take
`bias = match_ref - match_ds`, and smooth through `batch_bias`.  The
`cn` sparse-matrix conversions (`toarray`/`csr_matrix`) do not change
values and are omitted. -/
def transform (kexp : ℚ → ℚ) (curr_ds curr_ref : Mat) (ds_ind ref_ind : List ℕ)
    (sigma : ℚ) (batch_size : Option ℕ) : Mat :=
  let match_ds := ds_ind.map (fun a => curr_ds.getD a [])
  let match_ref := ref_ind.map (fun b => curr_ref.getD b [])
  let bias := (match_ref.zip match_ds).map (fun u =>
    (u.1.zip u.2).map (fun v => v.1 - v.2))
  batch_bias kexp curr_ds match_ds bias batch_size sigma

/-! ### `assemble` (scanorama.py lines 490-669)

State of the assembly loop.  `expr` models the optional `expr_datasets`
argument (mutated in place alongside the reduced coordinates); `assembled`
models the `ds_assembled` visit-counter dict (absent key = 0); `panoramas`
is the list of panorama member lists.
`mtab (i, j)` (keys with `i < j` only, as produced by
`find_alignments_table`) is the mutual match set for the pair, as the list
in which Python's set iteration enumerates it. -/

structure AsmState where
  datasets : List Mat
  expr : Option (List Mat)
  assembled : ℕ → ℕ
  panoramas : List (List ℕ)

def updateFn (f : ℕ → ℕ) (k v : ℕ) : ℕ → ℕ := fun x => if x = k then v else f x

def dsSize (ds : List Mat) (p : ℕ) : ℕ := (ds.getD p []).length

def matAdd (X Y : Mat) : Mat :=
  (X.zip Y).map (fun u => (u.1.zip u.2).map (fun v => v.1 + v.2))

/-- `np.concatenate([datasets[p] for p in P])` / `vstack(..)`. -/
def concatRows (ds : List Mat) (P : List ℕ) : Mat :=
  (P.map (fun p => ds.getD p [])).flatten

/-- Match-index remapping when dataset `a` is mapped onto a panorama `P`
(lines 538-545 and 569-576): walk the panorama members with a running base
offset, orienting each stored mutual match set so that the first component
is local to `a` and the second is an offset into the concatenation of `P`. -/
def panoMatch (mtab : ℕ × ℕ → Option (List (ℕ × ℕ))) (ds : List Mat)
    (a : ℕ) (P : List ℕ) : List (ℕ × ℕ) :=
  (P.foldl (fun (st : ℕ × List (ℕ × ℕ)) p =>
    let pairs :=
      if a < p then
        match mtab (a, p) with
        | some m => m.map (fun q => (q.1, q.2 + st.1))
        | none => []
      else if p < a then
        match mtab (p, a) with
        | some m => m.map (fun q => (q.2, q.1 + st.1))
        | none => []
      else []
    (st.1 + dsSize ds p, st.2 ++ pairs)) (0, [])).2

/-- Byte offset of member `i` inside the concatenation of panorama `P`
(lines 600-608: accumulate sizes until `p == i`). -/
def baseOffset (ds : List Mat) (P : List ℕ) (i : ℕ) : ℕ :=
  ((P.takeWhile (fun p => decide (p ≠ i))).map (dsSize ds)).sum

/-- First half of the merge-branch match construction (lines 611-620):
mtab contributed at the position of `i` inside panorama `Pi`, oriented
as (offset into concat of `Pi`, offset into concat of `Pj`). -/
def mergeMatchI (mtab : ℕ × ℕ → Option (List (ℕ × ℕ))) (ds : List Mat)
    (i j base_j : ℕ) (Pi : List ℕ) : List (ℕ × ℕ) :=
  (Pi.foldl (fun (st : ℕ × List (ℕ × ℕ)) p =>
    let pairs :=
      if p = i ∧ j < p then
        match mtab (j, p) with
        | some m => m.map (fun q => (q.2 + st.1, q.1 + base_j))
        | none => []
      else if p = i ∧ p < j then
        match mtab (p, j) with
        | some m => m.map (fun q => (q.1 + st.1, q.2 + base_j))
        | none => []
      else []
    (st.1 + dsSize ds p, st.2 ++ pairs)) (0, [])).2

/-- Second half of the merge-branch match construction (lines 621-629). -/
def mergeMatchJ (mtab : ℕ × ℕ → Option (List (ℕ × ℕ))) (ds : List Mat)
    (i j base_i : ℕ) (Pj : List ℕ) : List (ℕ × ℕ) :=
  (Pj.foldl (fun (st : ℕ × List (ℕ × ℕ)) p =>
    let pairs :=
      if p = j ∧ i < p then
        match mtab (i, p) with
        | some m => m.map (fun q => (q.1 + base_i, q.2 + st.1))
        | none => []
      else if p = j ∧ p < i then
        match mtab (p, i) with
        | some m => m.map (fun q => (q.2 + base_i, q.1 + st.1))
        | none => []
      else []
    (st.1 + dsSize ds p, st.2 ++ pairs)) (0, [])).2

/-- Write the corrected concatenation back into the member datasets by
running offsets (lines 638-642 and 654-658). -/
def writeBack (ds : List Mat) (P : List ℕ) (curr : Mat) : List Mat :=
  (P.foldl (fun (st : List Mat × ℕ) p =>
    let n := dsSize st.1 p
    (st.1.set p ((curr.drop st.2).take n), st.2 + n)) (ds, 0)).1

/-- "Map dataset `a` to panorama `P`" (lines 534-562 / 565-593): correct
`a` against the concatenation of `P`'s members, then append `a` to the
first panorama containing `anchor` (the member through which `P` was
found).  The expression block runs when `expr_datasets` is truthy, i.e. a
non-empty list. -/
def mapOnto (kexp : ℚ → ℚ) (sigma : ℚ) (batch_size : Option ℕ)
    (mtab : ℕ × ℕ → Option (List (ℕ × ℕ))) (st : AsmState)
    (a : ℕ) (P : List ℕ) (anchor : ℕ) : AsmState :=
  let curr_ds := st.datasets.getD a []
  let curr_ref := concatRows st.datasets P
  let mt := panoMatch mtab st.datasets a P
  let ds_ind := mt.map Prod.fst
  let ref_ind := mt.map Prod.snd
  let bias := transform kexp curr_ds curr_ref ds_ind ref_ind sigma batch_size
  let datasets := st.datasets.set a (matAdd curr_ds bias)
  let expr :=
    match st.expr with
    | none => none
    | some eds =>
      if eds = [] then some eds
      else
        let e_ds := eds.getD a []
        let e_ref := concatRows eds P
        let e_bias := transform kexp e_ds e_ref ds_ind ref_ind sigma batch_size
        some (eds.set a (matAdd e_ds e_bias))
  let panoramas := updateFirst (fun Q => decide (anchor ∈ Q)) (fun Q => Q ++ [a]) st.panoramas
  { st with datasets := datasets, expr := expr, panoramas := panoramas }

/-- The both-assigned branch (lines 595-663): correct the whole
concatenation of `Pi` against the concatenation of `Pj`, write the slices
back, optionally realign the expression matrices, and merge the panoramas
when they differ.  The realign block runs when `realign` is set and
`expr_datasets is not None` (even when the list is empty). -/
def mergeStep (kexp : ℚ → ℚ) (sigma : ℚ) (batch_size : Option ℕ) (realign : Bool)
    (mtab : ℕ × ℕ → Option (List (ℕ × ℕ))) (st : AsmState)
    (i j : ℕ) (Pi Pj : List ℕ) : AsmState :=
  let curr_ds := concatRows st.datasets Pi
  let curr_ref := concatRows st.datasets Pj
  let base_i := baseOffset st.datasets Pi i
  let base_j := baseOffset st.datasets Pj j
  let mt := mergeMatchI mtab st.datasets i j base_j Pi ++
            mergeMatchJ mtab st.datasets i j base_i Pj
  let ds_ind := mt.map Prod.fst
  let ref_ind := mt.map Prod.snd
  let bias := transform kexp curr_ds curr_ref ds_ind ref_ind sigma batch_size
  let newCurr := matAdd curr_ds bias
  let datasets := writeBack st.datasets Pi newCurr
  let expr :=
    match st.expr with
    | none => none
    | some eds =>
      if realign then
        let e_ds := concatRows eds Pi
        let e_ref := concatRows eds Pj
        let e_bias := transform kexp e_ds e_ref ds_ind ref_ind sigma batch_size
        some (writeBack eds Pi (matAdd e_ds e_bias))
      else some eds
  let panoramas :=
    if Pi ≠ Pj then
      eraseFirst Pj (updateFirst (fun Q => decide (i ∈ Q)) (fun Q => Q ++ Pj) st.panoramas)
    else st.panoramas
  { st with datasets := datasets, expr := expr, panoramas := panoramas }

/-- One iteration of `assemble`'s loop over alignment edges
(lines 501-667): increment both visit counters, skip the edge when both
exceed the cap of 3, otherwise dispatch on the panorama membership of the
endpoints (in the both-unassigned case the endpoints are first swapped so
that the larger dataset seeds the new panorama). -/
def assembleStep (kexp : ℚ → ℚ) (sigma : ℚ) (batch_size : Option ℕ) (realign : Bool)
    (mtab : ℕ × ℕ → Option (List (ℕ × ℕ))) (st : AsmState) (e : ℕ × ℕ) :
    AsmState :=
  let i := e.1
  let j := e.2
  let c1 := updateFn st.assembled i (st.assembled i + 1)
  let c2 := updateFn c1 j (c1 j + 1)
  let st1 : AsmState := { st with assembled := c2 }
  if 3 < c2 i ∧ 3 < c2 j then st1
  else
    match st1.panoramas.filter (fun P => decide (i ∈ P)),
          st1.panoramas.filter (fun P => decide (j ∈ P)) with
    | [], [] =>
      let ij := if dsSize st1.datasets i < dsSize st1.datasets j then (j, i) else (i, j)
      let st2 : AsmState := { st1 with panoramas := st1.panoramas ++ [[ij.1]] }
      mapOnto kexp sigma batch_size mtab st2 ij.2 [ij.1] ij.1
    | [], Pj :: _ => mapOnto kexp sigma batch_size mtab st1 i Pj j
    | Pi :: _, [] => mapOnto kexp sigma batch_size mtab st1 j Pi i
    | Pi :: _, Pj :: _ => mergeStep kexp sigma batch_size realign mtab st1 i j Pi Pj

/-- The assembly loop: fold `assembleStep` over the alignment edges
produced by `find_alignments` (whose output, being derived from the
external neighbor search, is passed in as `alignments`/`mtab`),
starting from empty panoramas and zero visit counters. -/
def assemble (kexp : ℚ → ℚ) (sigma : ℚ) (batch_size : Option ℕ) (realign : Bool)
    (alignments : List (ℕ × ℕ)) (mtab : ℕ × ℕ → Option (List (ℕ × ℕ)))
    (datasets : List Mat) (expr : Option (List Mat)) : AsmState :=
  let st0 : AsmState := ⟨datasets, expr, fun _ => 0, []⟩
  if datasets.length = 1 then st0
  else alignments.foldl (assembleStep kexp sigma batch_size realign mtab) st0

/-! ### Spec-side definition for the kernel-regression claim -/

def vecSub (x y : Vec) : Vec := (x.zip y).map (fun v => v.1 - v.2)

/-- Following the spec's words (§4.5), for comparison with `transform`:
the Nadaraya-Watson smoothed bias at a point `p` of the moving block, given
the list `mb` of (matched moving-side point `m`, bias vector) pairs: each
pair is weighted by `exp(-0.5 * sigma * ||p - m||^2)`, the weighted bias
vectors are summed coordinatewise and normalized by the sum of weights. -/
def nwEstimate (kexp : ℚ → ℚ) (sigma : ℚ) (p : Vec) (mb : List (Vec × Vec)) : Vec :=
  let total := (mb.map (fun q => kexp (-(1 / 2 * sigma * sqdist p q.1)))).sum
  (List.range p.length).map (fun c =>
    (mb.map (fun q => kexp (-(1 / 2 * sigma * sqdist p q.1)) * q.2.getD c 0)).sum
      / total)

/-! ### Concrete run of the assembly loop

Three one-dimensional datasets and a mutual-match table plausibly produced
by `find_alignments` (all three pairs aligned, edges in descending-score
order `(0,1), (0,2), (1,2)`).  With `sigma = 0` the source's
`rbf_kernel(X, Y, gamma=0.5*sigma)` evaluates the exponential only at 0,
where `exp 0 = 1` exactly (also in IEEE arithmetic), so the constant-one
function stands for the exponential in this run. -/

def expAtZero : ℚ → ℚ := fun _ => 1

def exDatasets : List Mat := [[[0]], [[2], [10]], [[3]]]

def exMatches : ℕ × ℕ → Option (List (ℕ × ℕ)) := fun e =>
  if e = (0, 1) then some [(0, 0)]
  else if e = (0, 2) then some [(0, 0)]
  else if e = (1, 2) then some [(1, 0)]
  else none

/-- The assembly state after processing edges `(0,1)` and `(0,2)`: all
three datasets lie in one panorama. -/
def exState2 : AsmState :=
  assemble expAtZero 0 none false [(0, 1), (0, 2)] exMatches exDatasets none

/-- A concrete directional match table (both directions of the pair
`(0, 1)` present) used to instantiate scoring statements. -/
def exScoreTable : ℕ × ℕ → Option (Finset (ℕ × ℕ)) := fun e =>
  if e = (0, 1) then some {(0, 0)}
  else if e = (1, 0) then some {(0, 0)}
  else none

/-! ## Theorems -/

/-- C3: every pair `(a, b)` of the mutual match set computed by `mnn`
appears in the directional match set of the first direction, and reversed
in the directional match set of the second direction. -/
theorem mnn_mutual (match1 match2 : Finset (ℕ × ℕ)) (a b : ℕ)
    (h : (a, b) ∈ mnn match1 match2) :
    (a, b) ∈ match1 ∧ (b, a) ∈ match2 := by
  rcases Finset.mem_inter.mp h with ⟨h1, h2⟩
  refine ⟨h1, ?_⟩
  rcases Finset.mem_image.mp h2 with ⟨q, hq, hqe⟩
  have : q = (b, a) := by
    cases q
    simp [Prod.swap] at hqe
    simp [hqe.1, hqe.2]
  rwa [this] at hq

theorem mnn_mutual_witness :
    (0, 1) ∈ mnn {(0, 1)} {(1, 0)} ∧
      ((0, 1) ∈ ({(0, 1)} : Finset (ℕ × ℕ)) ∧ (1, 0) ∈ ({(1, 0)} : Finset (ℕ × ℕ))) :=
  ⟨by decide, mnn_mutual {(0, 1)} {(1, 0)} 0 1 (by decide)⟩

/-- Intervals that start past `r` never contain `r`. -/
theorem intervalOwnersAux_nil_of_lt (base_ds : ℕ) (sizes : List ℕ) :
    ∀ j pos r, r < pos → intervalOwnersAux base_ds sizes j pos r = [] := by
  induction sizes with
  | nil => intro j pos r _; rfl
  | cons s rest ih =>
    intro j pos r h
    rw [intervalOwnersAux]
    rw [if_neg (by omega), ih (j + 1) (pos + s) r (by omega)]
    rfl

theorem intervalOwnersAux_spec (base_ds : ℕ) (sizes : List ℕ) :
    ∀ j pos r, pos ≤ r → r < pos + sizes.sum →
      (intervalOwnersAux base_ds sizes j pos r).length = 1 ∧
      ∀ q ∈ intervalOwnersAux base_ds sizes j pos r, q.2 ≤ r := by
  induction sizes with
  | nil =>
    intro j pos r h1 h2
    simp only [List.sum_nil, Nat.add_zero] at h2
    omega
  | cons s rest ih =>
    intro j pos r h1 h2
    rw [intervalOwnersAux]
    by_cases hc : r < pos + s
    · rw [if_pos ⟨h1, hc⟩, intervalOwnersAux_nil_of_lt base_ds rest (j + 1) (pos + s) r hc]
      refine ⟨rfl, ?_⟩
      intro q hq
      simp only [List.append_nil, List.mem_singleton] at hq
      subst hq
      simpa using h1
    · rw [if_neg (by omega)]
      simp only [List.nil_append]
      exact ih (j + 1) (pos + s) r (by omega) (by simp only [List.sum_cons] at h2; omega)

/-- C10: with non-empty reference datasets and an in-range global offset
`r`, the interval lookup of `fill_table` resolves to exactly one owning
dataset, and the recovered base offset satisfies `base ≤ r` (so the local
offset `r - base` is non-negative): both source assertions hold. -/
theorem fill_table_unique_owner (sizes : List ℕ) (base_ds r : ℕ)
    (hpos : ∀ s ∈ sizes, 0 < s) (hr : r < sizes.sum) :
    (intervalOwners sizes base_ds r).length = 1 ∧
      ∀ q ∈ intervalOwners sizes base_ds r, q.2 ≤ r :=
  intervalOwnersAux_spec base_ds sizes 0 0 r (Nat.zero_le r) (by simpa using hr)

theorem fill_table_unique_owner_witness :
    (intervalOwners [2, 3] 7 4).length = 1 ∧
      ∀ q ∈ intervalOwners [2, 3] 7 4, q.2 ≤ 4 :=
  fill_table_unique_owner [2, 3] 7 4 (by decide) (by decide)

/-- C6: for `i < j` with both directional tables present, the score stored
by `find_alignments_table` is the larger of the two matched fractions, and
it lies in `[0, 1]`. -/
theorem alignment_score_formula_bounds
    (sizes : List ℕ) (table : ℕ × ℕ → Option (Finset (ℕ × ℕ)))
    (i j : ℕ) (mij mji : Finset (ℕ × ℕ))
    (hij : i < j)
    (hmi : table (i, j) = some mij) (hmj : table (j, i) = some mji)
    (hb : ∀ q ∈ mij, q.1 < sizes.getD i 0 ∧ q.2 < sizes.getD j 0)
    (hsi : 0 < sizes.getD i 0) (hsj : 0 < sizes.getD j 0) :
    ∃ s, alignmentScore sizes table i j = some s ∧
      s = max ((((mij ∩ mji.image Prod.swap).image Prod.fst).card : ℚ) / (sizes.getD i 0 : ℚ))
              ((((mij ∩ mji.image Prod.swap).image Prod.snd).card : ℚ) / (sizes.getD j 0 : ℚ)) ∧
      0 ≤ s ∧ s ≤ 1 := by
  refine ⟨_, by simp [alignmentScore, mutualMatches, hmi, hmj], rfl, ?_, ?_⟩
  · refine le_max_of_le_left (div_nonneg (by positivity) (by positivity))
  · have hfst : (mij ∩ mji.image Prod.swap).image Prod.fst ⊆ Finset.range (sizes.getD i 0) := by
      intro x hx
      rcases Finset.mem_image.mp hx with ⟨q, hq, rfl⟩
      exact Finset.mem_range.mpr (hb q (Finset.mem_inter.mp hq).1).1
    have hsnd : (mij ∩ mji.image Prod.swap).image Prod.snd ⊆ Finset.range (sizes.getD j 0) := by
      intro x hx
      rcases Finset.mem_image.mp hx with ⟨q, hq, rfl⟩
      exact Finset.mem_range.mpr (hb q (Finset.mem_inter.mp hq).1).2
    have h1 : ((mij ∩ mji.image Prod.swap).image Prod.fst).card ≤ sizes.getD i 0 := by
      simpa using Finset.card_le_card hfst
    have h2 : ((mij ∩ mji.image Prod.swap).image Prod.snd).card ≤ sizes.getD j 0 := by
      simpa using Finset.card_le_card hsnd
    refine max_le ?_ ?_
    · rw [div_le_one (by positivity)]
      exact_mod_cast h1
    · rw [div_le_one (by positivity)]
      exact_mod_cast h2

theorem alignment_score_formula_bounds_witness :
    ∃ s, alignmentScore [1, 1] exScoreTable 0 1 = some s ∧
      s = max (((({(0, 0)} ∩ ({(0, 0)} : Finset (ℕ × ℕ)).image Prod.swap).image Prod.fst).card : ℚ)
                / (([1, 1] : List ℕ).getD 0 0 : ℚ))
              (((({(0, 0)} ∩ ({(0, 0)} : Finset (ℕ × ℕ)).image Prod.swap).image Prod.snd).card : ℚ)
                / (([1, 1] : List ℕ).getD 1 0 : ℚ)) ∧
      0 ≤ s ∧ s ≤ 1 :=
  alignment_score_formula_bounds [1, 1] exScoreTable 0 1 {(0, 0)} {(0, 0)}
    (by decide) (by decide) (by decide) (by decide) (by decide) (by decide)

/-- C4: `find_alignments` is the projection of a list `L` of score-table
entries that contains exactly the entries with score strictly above
`alpha`, ordered by weakly descending score. -/
theorem find_alignments_filter_sorted (table1 : List ((ℕ × ℕ) × ℚ)) (alpha : ℚ) :
    ∃ L : List ((ℕ × ℕ) × ℚ),
      find_alignments table1 alpha = L.map Prod.fst ∧
      (∀ e, e ∈ L ↔ e ∈ table1 ∧ alpha < e.2) ∧
      L.Pairwise (fun a b => b.2 ≤ a.2) := by
  refine ⟨((List.insertionSort scoreLE table1).reverse).filter
    (fun e => decide (alpha < e.2)), rfl, ?_, ?_⟩
  · intro e
    rw [List.mem_filter, List.mem_reverse, (List.perm_insertionSort scoreLE table1).mem_iff]
    simp
  · refine List.Pairwise.filter _ ?_
    rw [List.pairwise_reverse]
    exact List.sorted_insertionSort scoreLE table1

/-- C8: lowering the threshold can only extend the returned edge list:
every edge returned at threshold `a2` is returned at any `a1 ≤ a2`, and the
count of returned edges does not decrease. -/
theorem find_alignments_alpha_monotone (table1 : List ((ℕ × ℕ) × ℚ)) (a1 a2 : ℚ)
    (h : a1 ≤ a2) :
    (∀ p, p ∈ find_alignments table1 a2 → p ∈ find_alignments table1 a1) ∧
      (find_alignments table1 a2).length ≤ (find_alignments table1 a1).length := by
  have hsub : (find_alignments table1 a2).Sublist (find_alignments table1 a1) := by
    unfold find_alignments
    refine List.Sublist.map _ (List.monotone_filter_right _ ?_)
    intro e he
    simp only [decide_eq_true_eq] at he ⊢
    exact lt_of_le_of_lt h he
  exact ⟨fun p hp => hsub.subset hp, hsub.length_le⟩

theorem find_alignments_alpha_monotone_witness :
    (∀ p, p ∈ find_alignments [((0, 1), 1)] 2 → p ∈ find_alignments [((0, 1), 1)] 0) ∧
      (find_alignments [((0, 1), 1)] 2).length ≤ (find_alignments [((0, 1), 1)] 0).length :=
  find_alignments_alpha_monotone [((0, 1), 1)] 0 2 (by norm_num)

/-- C9: when, after incrementing, both visit counters exceed the cap of 3,
the edge is skipped: no dataset's coordinates, no expression matrix and no
panorama changes — only the counters advance. -/
theorem assemble_visit_cap_skip (kexp : ℚ → ℚ) (sigma : ℚ) (batch_size : Option ℕ)
    (realign : Bool) (mtab : ℕ × ℕ → Option (List (ℕ × ℕ))) (st : AsmState)
    (i j : ℕ) (hij : i ≠ j)
    (hi : 3 < st.assembled i + 1) (hj : 3 < st.assembled j + 1) :
    (assembleStep kexp sigma batch_size realign mtab st (i, j)).datasets = st.datasets ∧
      (assembleStep kexp sigma batch_size realign mtab st (i, j)).expr = st.expr ∧
      (assembleStep kexp sigma batch_size realign mtab st (i, j)).panoramas = st.panoramas := by
  have hcond : 3 < updateFn (updateFn st.assembled i (st.assembled i + 1)) j
      (updateFn st.assembled i (st.assembled i + 1) j + 1) i ∧
      3 < updateFn (updateFn st.assembled i (st.assembled i + 1)) j
      (updateFn st.assembled i (st.assembled i + 1) j + 1) j := by
    constructor
    · simpa [updateFn, hij, Ne.symm hij] using hi
    · simpa [updateFn, hij, Ne.symm hij] using hj
  rw [assembleStep]
  rw [if_pos hcond]
  exact ⟨rfl, rfl, rfl⟩

theorem assemble_visit_cap_skip_witness :
    ((0 : ℕ) ≠ 1 ∧ 3 < (3 : ℕ) + 1 ∧ 3 < (3 : ℕ) + 1) ∧
      ((assembleStep expAtZero 0 none false exMatches
          ⟨exDatasets, none, fun _ => 3, [[0, 1]]⟩ (0, 1)).datasets = exDatasets ∧
        (assembleStep expAtZero 0 none false exMatches
          ⟨exDatasets, none, fun _ => 3, [[0, 1]]⟩ (0, 1)).expr = none ∧
        (assembleStep expAtZero 0 none false exMatches
          ⟨exDatasets, none, fun _ => 3, [[0, 1]]⟩ (0, 1)).panoramas = [[0, 1]]) :=
  ⟨⟨by decide, by decide, by decide⟩,
    assemble_visit_cap_skip expAtZero 0 none false exMatches
      ⟨exDatasets, none, fun _ => 3, [[0, 1]]⟩ 0 1 (by decide) (by decide) (by decide)⟩

/-- C1 is refuted by this run: after `assemble` has processed the edges
`(0,1)` and `(0,2)` of the three-dataset example, both endpoints of the
remaining edge `(1,2)` lie in the same (unique) panorama `[1, 0, 2]`, yet
processing `(1,2)` changes the coordinate matrices: the source's
both-assigned branch applies the kernel correction to the whole shared
panorama and writes the result back even when no merge happens. -/
theorem assemble_same_panorama_not_noop_cex :
    ((exState2.panoramas.filter (fun P => decide (1 ∈ P)) = [[1, 0, 2]]) ∧
      (exState2.panoramas.filter (fun P => decide (2 ∈ P)) = [[1, 0, 2]])) ∧
      (assembleStep expAtZero 0 none false exMatches exState2 (1, 2)).datasets ≠
        exState2.datasets := by
  refine ⟨⟨by decide, by decide⟩, ?_⟩
  intro h
  have h1 : (assembleStep expAtZero 0 none false exMatches exState2 (1, 2)).datasets =
      [[[(-2 : ℚ)]], [[-2], [6]], [[2]]] := by
    norm_num [exState2, assemble, assembleStep, mapOnto, mergeStep, panoMatch, mergeMatchI,
      mergeMatchJ, baseOffset, writeBack, concatRows, dsSize, matAdd, transform, batch_bias,
      rowBias, kernelWeight, sqdist, updateFn, updateFirst, exDatasets, exMatches, expAtZero,
      List.range_succ]
  have h2 : exState2.datasets = [[[(2 : ℚ)]], [[2], [10]], [[6]]] := by
    norm_num [exState2, assemble, assembleStep, mapOnto, mergeStep, panoMatch, mergeMatchI,
      mergeMatchJ, baseOffset, writeBack, concatRows, dsSize, matAdd, transform, batch_bias,
      rowBias, kernelWeight, sqdist, updateFn, updateFirst, exDatasets, exMatches, expAtZero,
      List.range_succ]
  rw [h1, h2] at h
  simp at h

/-- C1 (amended): when both endpoints of an edge already belong to the same
panorama, processing the edge leaves the panorama grouping unchanged (the
merge is skipped) — but it is not a no-op on the data: the bias correction
is still applied to the shared panorama's datasets, as the accompanying
counterexample shows. -/
theorem assemble_same_panorama_grouping_unchanged (kexp : ℚ → ℚ) (sigma : ℚ)
    (batch_size : Option ℕ) (realign : Bool)
    (mtab : ℕ × ℕ → Option (List (ℕ × ℕ))) (st : AsmState) (i j : ℕ) (P : List ℕ)
    (hi : st.panoramas.filter (fun Q => decide (i ∈ Q)) = [P])
    (hj : st.panoramas.filter (fun Q => decide (j ∈ Q)) = [P]) :
    (assembleStep kexp sigma batch_size realign mtab st (i, j)).panoramas =
      st.panoramas := by
  rw [assembleStep]
  split
  · rfl
  · simp only
    rw [hi, hj]
    simp only [mergeStep]
    rw [if_neg (by simp)]

theorem assemble_same_panorama_grouping_unchanged_witness :
    ((exState2.panoramas.filter (fun Q => decide (1 ∈ Q)) = [[1, 0, 2]]) ∧
      (exState2.panoramas.filter (fun Q => decide (2 ∈ Q)) = [[1, 0, 2]])) ∧
      (assembleStep expAtZero 0 none false exMatches exState2 (1, 2)).panoramas =
        exState2.panoramas :=
  ⟨⟨by decide, by decide⟩,
    assemble_same_panorama_grouping_unchanged expAtZero 0 none false exMatches
      exState2 1 2 [1, 0, 2] (by decide) (by decide)⟩

/-- Summing a function over the `B`-sized slices at offsets `0, B, 2B, ...`
(`n` of them, enough to cover the list) equals summing it over the list. -/
theorem sum_chunks (f : α → ℚ) (B : ℕ) :
    ∀ (n : ℕ) (l : List α), l.length ≤ n * B →
      ((List.range n).map (fun t => (((l.drop (t * B)).take B).map f).sum)).sum
        = (l.map f).sum := by
  intro n
  induction n with
  | zero =>
    intro l hl
    simp only [Nat.zero_mul, Nat.le_zero, List.length_eq_zero] at hl
    subst hl
    simp
  | succ n ih =>
    intro l hl
    rw [Nat.succ_mul] at hl
    rw [List.range_succ_eq_map]
    simp only [List.map_cons, List.sum_cons, List.map_map]
    have hmap : ∀ t ∈ List.range n,
        ((fun t => (((l.drop (t * B)).take B).map f).sum) ∘ Nat.succ) t
          = (((((l.drop B).drop (t * B))).take B).map f).sum := by
      intro t _
      have he : Nat.succ t * B = B + t * B := by rw [Nat.succ_mul, Nat.add_comm]
      simp only [Function.comp_apply, he, ← List.drop_drop]
    rw [List.map_congr_left hmap]
    rw [ih (l.drop B) (by rw [List.length_drop]; omega)]
    rw [Nat.zero_mul, List.drop_zero, ← List.sum_append, ← List.map_append,
      List.take_append_drop]

/-- `ceil(len / B) * B` covers `len`. -/
theorem le_chunks_mul (len B : ℕ) (hB : 1 ≤ B) : len ≤ (len + B - 1) / B * B := by
  rcases Nat.eq_zero_or_pos len with h | h
  · omega
  · have h1 := Nat.div_add_mod (len + B - 1) B
    have h2 : (len + B - 1) % B < B := Nat.mod_lt _ (by omega)
    rw [Nat.mul_comm] at h1
    generalize hq : (len + B - 1) / B * B = m at h1 ⊢
    generalize hr : (len + B - 1) % B = r at h1 h2
    omega

/-- A `B`-slice of the zip is the zip of the `B`-slices. -/
theorem zip_chunk_eq (l1 : List α) (l2 : List β) (t B : ℕ) :
    ((l1.zip l2).drop t).take B = ((l1.drop t).take B).zip ((l2.drop t).take B) :=
  (congrArg (List.take B) List.drop_zipWith).trans List.take_zipWith

theorem rowBiasBatched_eq_rowBias (kexp : ℚ → ℚ) (sigma : ℚ) (B : ℕ) (hB : 1 ≤ B)
    (p : Vec) (match_ds bias : Mat) :
    rowBiasBatched kexp sigma B p match_ds bias = rowBias kexp sigma p match_ds bias := by
  simp only [rowBiasBatched, rowBias]
  have hzm : ∀ (m b : Mat) (c : ℕ),
      ((m.map (kernelWeight kexp sigma p)).zip b).map (fun u => u.1 * u.2.getD c 0)
        = (m.zip b).map (fun u => kernelWeight kexp sigma p u.1 * u.2.getD c 0) := by
    intro m b c
    rw [List.zip_map_left, List.map_map]
    rfl
  have hden :
      ((List.range ((match_ds.length + B - 1) / B)).map (fun t =>
        (((match_ds.drop (t * B)).take B).map (kernelWeight kexp sigma p)).sum)).sum
        = (match_ds.map (kernelWeight kexp sigma p)).sum :=
    sum_chunks (kernelWeight kexp sigma p) B _ match_ds
      (le_chunks_mul match_ds.length B hB)
  rw [hden]
  refine List.map_congr_left ?_
  intro c _
  congr 1
  have hchunks : ∀ t ∈ List.range ((match_ds.length + B - 1) / B),
      (fun t =>
        (((((match_ds.drop (t * B)).take B).map (kernelWeight kexp sigma p)).zip
          ((bias.drop (t * B)).take B)).map (fun u => u.1 * u.2.getD c 0)).sum) t
        = ((((match_ds.zip bias).drop (t * B)).take B).map
            (fun u => kernelWeight kexp sigma p u.1 * u.2.getD c 0)).sum := by
    intro t _
    dsimp only
    rw [hzm, zip_chunk_eq]
  rw [List.map_congr_left hchunks]
  rw [sum_chunks (fun u => kernelWeight kexp sigma p u.1 * u.2.getD c 0) B _
    (match_ds.zip bias)
    (le_trans (by rw [List.length_zip]; exact Nat.min_le_left _ _)
      (le_chunks_mul match_ds.length B hB))]
  rw [hzm]

/-- C7: over exact arithmetic, `batch_bias` with any finite batch size
`B ≥ 1` returns exactly the unbatched result: accumulating the weighted
numerator and the weight-sum denominator chunk by chunk and dividing once
at the end equals the single-pass computation. -/
theorem batch_bias_batch_size_equiv (kexp : ℚ → ℚ) (curr_ds match_ds bias : Mat)
    (sigma : ℚ) (B : ℕ) (hB : 1 ≤ B) :
    batch_bias kexp curr_ds match_ds bias (some B) sigma
      = batch_bias kexp curr_ds match_ds bias none sigma := by
  unfold batch_bias
  exact List.map_congr_left (fun p _ =>
    rowBiasBatched_eq_rowBias kexp sigma B hB p match_ds bias)

theorem batch_bias_batch_size_equiv_witness :
    (1 : ℕ) ≤ 1 ∧
      batch_bias expAtZero [[0], [5]] [[1], [3], [4]] [[2], [1], [6]] (some 1) 7
        = batch_bias expAtZero [[0], [5]] [[1], [3], [4]] [[2], [1], [6]] none 7 :=
  ⟨le_refl 1,
    batch_bias_batch_size_equiv expAtZero [[0], [5]] [[1], [3], [4]] [[2], [1], [6]]
      7 1 (le_refl 1)⟩

/-- The weight list read off the spec-side match/bias pairs equals the
weight list `transform` computes from the gathered matched rows. -/
theorem nw_weights_eq (kexp : ℚ → ℚ) (sigma : ℚ) (p : Vec) (mf rf : ℕ → Vec) :
    ∀ (di ri : List ℕ), di.length = ri.length →
      ((di.zip ri).map (fun q => (mf q.1, vecSub (rf q.2) (mf q.1)))).map
          (fun q => kexp (-(1 / 2 * sigma * sqdist p q.1)))
        = (di.map mf).map (kernelWeight kexp sigma p) := by
  intro di
  induction di with
  | nil => intro ri _; simp
  | cons a di ih =>
    intro ri h
    match ri with
    | [] => simp at h
    | b :: ri =>
      simp only [List.zip_cons_cons, List.map_cons, kernelWeight]
      rw [ih ri (by simpa using h)]

/-- The weighted-numerator list of `transform` (weights zipped against the
gathered `match_ref - match_ds` rows) equals the numerator list read off
the spec-side match/bias pairs. -/
theorem nw_numerator_eq (kexp : ℚ → ℚ) (sigma : ℚ) (p : Vec) (mf rf : ℕ → Vec) :
    ∀ (di ri : List ℕ), di.length = ri.length → ∀ c : ℕ,
      (((di.map mf).map (kernelWeight kexp sigma p)).zip
        (((ri.map rf).zip (di.map mf)).map
          (fun u => (u.1.zip u.2).map (fun v => v.1 - v.2)))).map
            (fun u => u.1 * u.2.getD c 0)
        = ((di.zip ri).map (fun q => (mf q.1, vecSub (rf q.2) (mf q.1)))).map
            (fun q => kexp (-(1 / 2 * sigma * sqdist p q.1)) * q.2.getD c 0) := by
  intro di
  induction di with
  | nil => intro ri _ c; simp
  | cons a di ih =>
    intro ri h c
    match ri with
    | [] => simp at h
    | b :: ri =>
      simp only [List.map_cons, List.zip_cons_cons, kernelWeight, vecSub]
      rw [ih ri (by simpa using h) c]
      simp only [vecSub]

/-- C5: with the unbatched path, `transform` assigns to every point `p` of
the moving block (matched or not) exactly the Nadaraya-Watson estimate of
the spec: the average of the per-match bias vectors
`referenceMatched - movingMatched`, weighted by
`exp(-0.5 * sigma * ||p - m||^2)` against each matched moving-side point
`m`, normalized by the sum of the weights. -/
theorem transform_nadaraya_watson (kexp : ℚ → ℚ) (sigma : ℚ)
    (curr_ds curr_ref : Mat) (ds_ind ref_ind : List ℕ)
    (hmov : curr_ds ≠ []) (href : curr_ref ≠ []) (hmatch : ds_ind ≠ [])
    (hlen : ds_ind.length = ref_ind.length)
    (pidx : ℕ) (hp : pidx < curr_ds.length) :
    (transform kexp curr_ds curr_ref ds_ind ref_ind sigma none).getD pidx []
      = nwEstimate kexp sigma (curr_ds.getD pidx [])
          ((ds_ind.zip ref_ind).map (fun q =>
            (curr_ds.getD q.1 [],
              vecSub (curr_ref.getD q.2 []) (curr_ds.getD q.1 [])))) := by
  have hmain : transform kexp curr_ds curr_ref ds_ind ref_ind sigma none
      = curr_ds.map (fun p => rowBias kexp sigma p
          (ds_ind.map (fun a => curr_ds.getD a []))
          (((ref_ind.map (fun b => curr_ref.getD b [])).zip
            (ds_ind.map (fun a => curr_ds.getD a []))).map
              (fun u => (u.1.zip u.2).map (fun v => v.1 - v.2)))) := by
    simp only [transform, batch_bias]
  rw [hmain, List.getD_eq_getElem _ _ (by simpa using hp), List.getElem_map,
    List.getD_eq_getElem _ _ hp]
  simp only [rowBias, nwEstimate]
  refine List.map_congr_left ?_
  intro c _
  rw [nw_numerator_eq kexp sigma curr_ds[pidx]
      (fun a => curr_ds.getD a []) (fun b => curr_ref.getD b []) ds_ind ref_ind hlen c,
    nw_weights_eq kexp sigma curr_ds[pidx]
      (fun a => curr_ds.getD a []) (fun b => curr_ref.getD b []) ds_ind ref_ind hlen]

theorem transform_nadaraya_watson_witness :
    (([[0], [1]] : Mat) ≠ [] ∧ ([[3]] : Mat) ≠ [] ∧ ([0] : List ℕ) ≠ [] ∧
      ([0] : List ℕ).length = ([0] : List ℕ).length ∧ 1 < ([[0], [1]] : Mat).length) ∧
      (transform expAtZero [[0], [1]] [[3]] [0] [0] 5 none).getD 1 []
        = nwEstimate expAtZero 5 (([[0], [1]] : Mat).getD 1 [])
            ((([0] : List ℕ).zip ([0] : List ℕ)).map (fun q =>
              (([[0], [1]] : Mat).getD q.1 [],
                vecSub (([[3]] : Mat).getD q.2 []) (([[0], [1]] : Mat).getD q.1 [])))) :=
  ⟨⟨by decide, by decide, by decide, rfl, by decide⟩,
    transform_nadaraya_watson expAtZero 5 [[0], [1]] [[3]] [0] [0]
      (by decide) (by decide) (by decide) rfl 1 (by decide)⟩

/-- Effect of `updateFirst` on `countP`, stated additively: the first
element satisfying `f` (the head of the filter) is replaced by its image
under `g`, everything else is untouched. -/
theorem countP_updateFirst (f : α → Bool) (g : α → α) (p : α → Bool) :
    ∀ (l : List α) (P0 : α) (t : List α), l.filter f = P0 :: t →
      (updateFirst f g l).countP p + (if p P0 = true then 1 else 0)
        = l.countP p + (if p (g P0) = true then 1 else 0) := by
  intro l
  induction l with
  | nil => intro P0 t h; simp at h
  | cons a l ih =>
    intro P0 t h
    by_cases hfa : f a = true
    · rw [List.filter_cons_of_pos hfa] at h
      injection h with h1 h2
      subst h1
      simp only [updateFirst, if_pos hfa, List.countP_cons]
      omega
    · rw [List.filter_cons_of_neg hfa] at h
      simp only [updateFirst, if_neg hfa, List.countP_cons]
      have := ih P0 t h
      omega

/-- Members of `updateFirst f g l` are members of `l` or the image of a
member satisfying `f`. -/
theorem mem_updateFirst (f : α → Bool) (g : α → α) :
    ∀ (l : List α) (x : α), x ∈ updateFirst f g l →
      x ∈ l ∨ ∃ P, P ∈ l ∧ f P = true ∧ x = g P := by
  intro l
  induction l with
  | nil => intro x hx; simp [updateFirst] at hx
  | cons a l ih =>
    intro x hx
    simp only [updateFirst] at hx
    by_cases hfa : f a = true
    · rw [if_pos hfa] at hx
      rcases List.mem_cons.mp hx with h | h
      · exact Or.inr ⟨a, List.mem_cons_self a l, hfa, h⟩
      · exact Or.inl (List.mem_cons_of_mem a h)
    · rw [if_neg hfa] at hx
      rcases List.mem_cons.mp hx with h | h
      · exact Or.inl (by simp [h])
      · rcases ih x h with h1 | ⟨P, hP, hfP, hxg⟩
        · exact Or.inl (List.mem_cons_of_mem a h1)
        · exact Or.inr ⟨P, List.mem_cons_of_mem a hP, hfP, hxg⟩

/-- Effect of `eraseFirst` on `countP`, additively. -/
theorem countP_eraseFirst (p : α → Bool) [DecidableEq α] (x : α) :
    ∀ l : List α, x ∈ l →
      (eraseFirst x l).countP p + (if p x = true then 1 else 0) = l.countP p := by
  intro l
  induction l with
  | nil => intro h; simp at h
  | cons a l ih =>
    intro h
    by_cases hax : a = x
    · subst hax
      simp [eraseFirst, List.countP_cons]
    · simp only [eraseFirst, if_neg hax, List.countP_cons]
      have hm : x ∈ l := by
        rcases List.mem_cons.mp h with h1 | h1
        · exact absurd h1.symm hax
        · exact h1
      have := ih hm
      omega

theorem mem_eraseFirst [DecidableEq α] (x : α) :
    ∀ (l : List α) (y : α), y ∈ eraseFirst x l → y ∈ l := by
  intro l
  induction l with
  | nil => intro y hy; simp [eraseFirst] at hy
  | cons a l ih =>
    intro y hy
    by_cases hax : a = x
    · subst hax
      rw [eraseFirst, if_pos rfl] at hy
      exact List.mem_cons_of_mem a hy
    · rw [eraseFirst, if_neg hax] at hy
      rcases List.mem_cons.mp hy with h | h
      · simp [h]
      · exact List.mem_cons_of_mem a (ih y h)

/-- Two distinct members both satisfying `p` force a `countP` of at
least 2. -/
theorem two_le_countP (p : α → Bool) (l : List α) (x y : α)
    (hx : x ∈ l) (hy : y ∈ l) (hxy : x ≠ y)
    (hpx : p x = true) (hpy : p y = true) : 2 ≤ l.countP p := by
  rw [List.countP_eq_length_filter]
  have hx2 : x ∈ l.filter p := List.mem_filter.mpr ⟨hx, hpx⟩
  have hy2 : y ∈ l.filter p := List.mem_filter.mpr ⟨hy, hpy⟩
  rcases hf : l.filter p with _ | ⟨z, _ | ⟨w, r⟩⟩
  · rw [hf] at hx2; simp at hx2
  · rw [hf] at hx2 hy2
    simp only [List.mem_singleton] at hx2 hy2
    exact absurd (hx2.trans hy2.symm) hxy
  · simp

theorem panCount_eq_zero_of_filter_nil (ps : List (List ℕ)) (d : ℕ)
    (h : ps.filter (fun P => decide (d ∈ P)) = []) : panCount ps d = 0 := by
  rw [panCount, List.countP_eq_length_filter, h]
  rfl

theorem filter_head_facts (ps : List (List ℕ)) (d : ℕ) (P : List ℕ)
    (t : List (List ℕ)) (h : ps.filter (fun Q => decide (d ∈ Q)) = P :: t) :
    P ∈ ps ∧ d ∈ P ∧ 1 ≤ panCount ps d := by
  have hm : P ∈ ps.filter (fun Q => decide (d ∈ Q)) := by
    rw [h]
    exact List.mem_cons_self P t
  have hm2 := List.mem_filter.mp hm
  refine ⟨hm2.1, by simpa using hm2.2, ?_⟩
  rw [panCount, List.countP_eq_length_filter, h]
  simp

theorem not_mem_of_panCount_zero (ps : List (List ℕ)) (d : ℕ)
    (h : panCount ps d = 0) : ∀ P ∈ ps, d ∉ P := by
  intro P hP
  have := List.countP_eq_zero.mp h P hP
  simpa using this

/-- The per-edge invariant of `connect`'s loop: each panorama stays
non-empty, no dataset index lies in two panoramas, and the covered indices
after the edge `(i, j)` are exactly the previously covered ones plus `i`
and `j`. -/
theorem connectStep_invariant (ps : List (List ℕ)) (i j : ℕ)
    (hne : ∀ P ∈ ps, P ≠ []) (hc : ∀ d, panCount ps d ≤ 1) :
    (∀ P ∈ connectStep ps i j, P ≠ []) ∧
      (∀ d, panCount (connectStep ps i j) d ≤ 1) ∧
      (∀ d, panCount (connectStep ps i j) d = 1 ↔
        panCount ps d = 1 ∨ d = i ∨ d = j) := by
  rcases hfi : ps.filter (fun P => decide (i ∈ P)) with _ | ⟨Pi, ti⟩ <;>
    rcases hfj : ps.filter (fun P => decide (j ∈ P)) with _ | ⟨Pj, tj⟩
  · -- Case A: neither endpoint is in a panorama
    have hstep : connectStep ps i j = ps ++ [[i, j]] := by
      rw [connectStep, hfi, hfj]
    have hpi : panCount ps i = 0 := panCount_eq_zero_of_filter_nil ps i hfi
    have hpj : panCount ps j = 0 := panCount_eq_zero_of_filter_nil ps j hfj
    have hcount : ∀ d, panCount (ps ++ [[i, j]]) d
        = panCount ps d + (if d = i ∨ d = j then 1 else 0) := by
      intro d
      rw [panCount, List.countP_append, panCount]
      congr 1
      by_cases hd : d = i ∨ d = j
      · rw [if_pos hd]
        simp only [List.countP_cons, List.countP_nil]
        have : d ∈ [i, j] := by rcases hd with rfl | rfl <;> simp
        simp [this]
      · rw [if_neg hd]
        push_neg at hd
        simp only [List.countP_cons, List.countP_nil]
        have : d ∉ [i, j] := by simp [hd.1, hd.2]
        simp [this]
    rw [hstep]
    refine ⟨?_, ?_, ?_⟩
    · intro P hP
      rcases List.mem_append.mp hP with h | h
      · exact hne P h
      · simp only [List.mem_singleton] at h
        subst h
        simp
    · intro d
      rw [hcount]
      by_cases hd : d = i ∨ d = j
      · have h0 : panCount ps d = 0 := by rcases hd with rfl | rfl <;> assumption
        rw [h0, if_pos hd]
      · rw [if_neg hd]
        simpa using hc d
    · intro d
      rw [hcount]
      by_cases hd : d = i ∨ d = j
      · have h0 : panCount ps d = 0 := by rcases hd with rfl | rfl <;> assumption
        rw [h0, if_pos hd]
        simp [hd]
      · rw [if_neg hd]
        push_neg at hd
        simp [hd.1, hd.2]
  · -- Case B: only `j` is already in a panorama
    have hstep : connectStep ps i j
        = updateFirst (fun P => decide (j ∈ P)) (fun P => P ++ [i]) ps := by
      rw [connectStep, hfi, hfj]
    have hpi : panCount ps i = 0 := panCount_eq_zero_of_filter_nil ps i hfi
    obtain ⟨hPjmem, hjPj, hge⟩ := filter_head_facts ps j Pj tj hfj
    have hcj : panCount ps j = 1 := le_antisymm (hc j) hge
    have hiP := not_mem_of_panCount_zero ps i hpi
    have hkey : ∀ d, panCount (connectStep ps i j) d
          + (if decide (d ∈ Pj) = true then 1 else 0)
        = panCount ps d + (if decide (d ∈ Pj ++ [i]) = true then 1 else 0) := by
      intro d
      rw [hstep, panCount, panCount]
      exact countP_updateFirst _ _ (fun P => decide (d ∈ P)) ps Pj tj hfj
    have hci' : panCount (connectStep ps i j) i = 1 := by
      have k := hkey i
      rw [if_neg (by simpa using hiP Pj hPjmem), if_pos (by simp), hpi] at k
      omega
    have heq : ∀ d, d ≠ i → panCount (connectStep ps i j) d = panCount ps d := by
      intro d hdi
      have k := hkey d
      have : (d ∈ Pj ++ [i]) ↔ (d ∈ Pj) := by simp [hdi]
      by_cases hdPj : d ∈ Pj
      · rw [if_pos (by simpa using hdPj), if_pos (by simp [this, hdPj])] at k
        omega
      · rw [if_neg (by simpa using hdPj), if_neg (by simp [this, hdPj])] at k
        omega
    refine ⟨?_, ?_, ?_⟩
    · intro P hP
      rw [hstep] at hP
      rcases mem_updateFirst _ _ ps P hP with h | ⟨Q, hQ, _, hPQ⟩
      · exact hne P h
      · subst hPQ
        simp
    · intro d
      by_cases hdi : d = i
      · subst hdi
        rw [hci']
      · rw [heq d hdi]
        exact hc d
    · intro d
      by_cases hdi : d = i
      · subst hdi
        rw [hci']
        simp
      · rw [heq d hdi]
        constructor
        · exact fun h => Or.inl h
        · rintro (h | h | h)
          · exact h
          · exact absurd h hdi
          · subst h
            exact hcj
  · -- Case C: only `i` is already in a panorama
    have hstep : connectStep ps i j
        = updateFirst (fun P => decide (i ∈ P)) (fun P => P ++ [j]) ps := by
      rw [connectStep, hfi, hfj]
    have hpj : panCount ps j = 0 := panCount_eq_zero_of_filter_nil ps j hfj
    obtain ⟨hPimem, hiPi, hge⟩ := filter_head_facts ps i Pi ti hfi
    have hci : panCount ps i = 1 := le_antisymm (hc i) hge
    have hjP := not_mem_of_panCount_zero ps j hpj
    have hkey : ∀ d, panCount (connectStep ps i j) d
          + (if decide (d ∈ Pi) = true then 1 else 0)
        = panCount ps d + (if decide (d ∈ Pi ++ [j]) = true then 1 else 0) := by
      intro d
      rw [hstep, panCount, panCount]
      exact countP_updateFirst _ _ (fun P => decide (d ∈ P)) ps Pi ti hfi
    have hcj' : panCount (connectStep ps i j) j = 1 := by
      have k := hkey j
      rw [if_neg (by simpa using hjP Pi hPimem), if_pos (by simp), hpj] at k
      omega
    have heq : ∀ d, d ≠ j → panCount (connectStep ps i j) d = panCount ps d := by
      intro d hdj
      have k := hkey d
      have : (d ∈ Pi ++ [j]) ↔ (d ∈ Pi) := by simp [hdj]
      by_cases hdPi : d ∈ Pi
      · rw [if_pos (by simpa using hdPi), if_pos (by simp [this, hdPi])] at k
        omega
      · rw [if_neg (by simpa using hdPi), if_neg (by simp [this, hdPi])] at k
        omega
    refine ⟨?_, ?_, ?_⟩
    · intro P hP
      rw [hstep] at hP
      rcases mem_updateFirst _ _ ps P hP with h | ⟨Q, hQ, _, hPQ⟩
      · exact hne P h
      · subst hPQ
        simp
    · intro d
      by_cases hdj : d = j
      · subst hdj
        rw [hcj']
      · rw [heq d hdj]
        exact hc d
    · intro d
      by_cases hdj : d = j
      · subst hdj
        rw [hcj']
        simp
      · rw [heq d hdj]
        constructor
        · exact fun h => Or.inl h
        · rintro (h | h | h)
          · exact h
          · subst h
            exact hci
          · exact absurd h hdj
  · -- Case D: both endpoints already have panoramas
    obtain ⟨hPimem, hiPi, hgei⟩ := filter_head_facts ps i Pi ti hfi
    obtain ⟨hPjmem, hjPj, hgej⟩ := filter_head_facts ps j Pj tj hfj
    have hci : panCount ps i = 1 := le_antisymm (hc i) hgei
    have hcj : panCount ps j = 1 := le_antisymm (hc j) hgej
    by_cases hPP : Pi = Pj
    · have hstep : connectStep ps i j = ps := by
        rw [connectStep, hfi, hfj]
        simp [hPP]
      rw [hstep]
      refine ⟨hne, hc, ?_⟩
      intro d
      constructor
      · exact fun h => Or.inl h
      · rintro (h | h | h)
        · exact h
        · subst h
          exact hci
        · subst h
          exact hcj
    · -- merge of two distinct panoramas
      have hstep : connectStep ps i j
          = eraseFirst Pj
              (updateFirst (fun P => decide (i ∈ P)) (fun P => P ++ Pj) ps) := by
        rw [connectStep, hfi, hfj]
        simp [hPP]
      have hfiOne : ps.filter (fun P => decide (i ∈ P)) = [Pi] := by
        have hlen : (ps.filter (fun P => decide (i ∈ P))).length = 1 := by
          rw [← List.countP_eq_length_filter]
          exact hci
        rw [hfi] at hlen ⊢
        simp only [List.length_cons] at hlen
        have : ti = [] := List.length_eq_zero.mp (by omega)
        rw [this]
      have hiPj : i ∉ Pj := by
        intro hmem
        have : Pj ∈ ps.filter (fun P => decide (i ∈ P)) :=
          List.mem_filter.mpr ⟨hPjmem, by simpa using hmem⟩
        rw [hfiOne] at this
        simp only [List.mem_singleton] at this
        exact hPP this.symm
      have hPine : Pi ≠ [] := by
        intro h
        rw [h] at hiPi
        simp at hiPi
      have happne : Pi ++ Pj ≠ Pj := by
        intro h
        have := congrArg List.length h
        simp only [List.length_append] at this
        exact hPine (List.length_eq_zero.mp (by omega))
      have hPjUF : Pj ∈ updateFirst (fun P => decide (i ∈ P)) (fun P => P ++ Pj) ps := by
        have k := countP_updateFirst (fun P => decide (i ∈ P)) (fun P => P ++ Pj)
          (fun P => decide (P = Pj)) ps Pi ti hfi
        rw [if_neg (by simpa using hPP), if_neg (by simpa using happne)] at k
        have hpos : 0 < ps.countP (fun P => decide (P = Pj)) :=
          List.countP_pos.mpr ⟨Pj, hPjmem, by simp⟩
        have hpos2 : 0 < (updateFirst (fun P => decide (i ∈ P))
            (fun P => P ++ Pj) ps).countP (fun P => decide (P = Pj)) := by omega
        rcases List.countP_pos.mp hpos2 with ⟨Q, hQ, hQe⟩
        simp only [decide_eq_true_eq] at hQe
        rw [hQe] at hQ
        exact hQ
      have heq : ∀ d, panCount (connectStep ps i j) d = panCount ps d := by
        intro d
        have k1 := countP_updateFirst (fun P => decide (i ∈ P)) (fun P => P ++ Pj)
          (fun P => decide (d ∈ P)) ps Pi ti hfi
        have k2 := countP_eraseFirst (fun P => decide (d ∈ P)) Pj
          (updateFirst (fun P => decide (i ∈ P)) (fun P => P ++ Pj) ps) hPjUF
        have hexcl : ¬(d ∈ Pi ∧ d ∈ Pj) := by
          rintro ⟨h1, h2⟩
          have := two_le_countP (fun P => decide (d ∈ P)) ps Pi Pj hPimem hPjmem
            hPP (by simpa using h1) (by simpa using h2)
          have := hc d
          rw [panCount] at this
          omega
        rw [hstep, panCount, panCount]
        by_cases h1 : d ∈ Pi <;> by_cases h2 : d ∈ Pj
        · exact absurd ⟨h1, h2⟩ hexcl
        · rw [if_pos (by simpa using h1), if_pos (by simp [h1])] at k1
          rw [if_neg (by simpa using h2)] at k2
          omega
        · rw [if_neg (by simpa using h1), if_pos (by simp [h2])] at k1
          rw [if_pos (by simpa using h2)] at k2
          omega
        · rw [if_neg (by simpa using h1), if_neg (by simp [h1, h2])] at k1
          rw [if_neg (by simpa using h2)] at k2
          omega
      refine ⟨?_, ?_, ?_⟩
      · intro P hP
        rw [hstep] at hP
        have hP2 := mem_eraseFirst Pj _ P hP
        rcases mem_updateFirst _ _ ps P hP2 with h | ⟨Q, hQ, _, hPQ⟩
        · exact hne P h
        · subst hPQ
          intro hPnil
          rcases List.append_eq_nil.mp hPnil with ⟨_, h2⟩
          rw [h2] at hjPj
          simp at hjPj
      · intro d
        rw [heq d]
        exact hc d
      · intro d
        rw [heq d]
        constructor
        · exact fun h => Or.inl h
        · rintro (h | h | h)
          · exact h
          · subst h
            exact hci
          · subst h
            exact hcj

/-- Folding `connectStep` over an edge list preserves the invariant and
covers exactly the previously covered indices plus the edges' endpoints. -/
theorem connect_fold_invariant (al : List (ℕ × ℕ)) :
    ∀ ps : List (List ℕ), (∀ P ∈ ps, P ≠ []) → (∀ d, panCount ps d ≤ 1) →
      (∀ P ∈ al.foldl (fun ps e => connectStep ps e.1 e.2) ps, P ≠ []) ∧
        (∀ d, panCount (al.foldl (fun ps e => connectStep ps e.1 e.2) ps) d ≤ 1) ∧
        (∀ d, panCount (al.foldl (fun ps e => connectStep ps e.1 e.2) ps) d = 1 ↔
          (panCount ps d = 1 ∨ touched al d = true)) := by
  induction al with
  | nil =>
    intro ps h1 h2
    refine ⟨h1, h2, ?_⟩
    intro d
    simp [touched]
  | cons e al ih =>
    intro ps h1 h2
    obtain ⟨s1, s2, s3⟩ := connectStep_invariant ps e.1 e.2 h1 h2
    obtain ⟨f1, f2, f3⟩ := ih (connectStep ps e.1 e.2) s1 s2
    simp only [List.foldl_cons]
    refine ⟨f1, f2, ?_⟩
    intro d
    rw [f3 d, s3 d]
    simp only [touched, List.any_cons, Bool.or_eq_true, decide_eq_true_eq]
    tauto

theorem countP_range_eq (n d : ℕ) :
    (List.range n).countP (fun x => decide (d = x)) = if d < n then 1 else 0 := by
  induction n with
  | zero => simp
  | succ n ih =>
    rw [List.range_succ, List.countP_append, ih]
    simp only [List.countP_cons, List.countP_nil]
    by_cases h : d = n
    · subst h
      simp
    · by_cases h2 : d < n
      · have h3 : d < n + 1 := by omega
        simp [h, h2, h3]
      · have h3 : ¬ d < n + 1 := by omega
        simp [h, h2, h3]

/-- Count of `d` among the singleton panoramas appended by `connect`. -/
theorem panCount_singles (al : List (ℕ × ℕ)) (n d : ℕ) :
    panCount (((List.range n).filter (fun d => !touched al d)).map (fun d => [d])) d
      = if d < n ∧ touched al d = false then 1 else 0 := by
  rw [panCount, List.countP_map, List.countP_filter]
  by_cases ht : touched al d = false
  · have hpt : ∀ x ∈ List.range n,
        (((fun P => decide (d ∈ P)) ∘ fun x : ℕ => [x]) x && !touched al x) = true
          ↔ (fun x : ℕ => decide (d = x)) x = true := by
      intro x _
      simp only [Function.comp_apply, Bool.and_eq_true, decide_eq_true_eq,
        List.mem_singleton, Bool.not_eq_true', decide_eq_true_eq]
      constructor
      · exact fun hx => hx.1
      · rintro rfl
        exact ⟨rfl, ht⟩
    rw [List.countP_congr hpt, countP_range_eq]
    by_cases hdn : d < n
    · simp [hdn, ht]
    · simp [hdn]
  · have hpt : ∀ x ∈ List.range n,
        ¬ ((((fun P => decide (d ∈ P)) ∘ fun x : ℕ => [x]) x && !touched al x) = true) := by
      intro x _
      simp only [Function.comp_apply, Bool.and_eq_true, decide_eq_true_eq,
        List.mem_singleton, Bool.not_eq_true']
      rintro ⟨rfl, h2⟩
      exact ht h2
    rw [List.countP_eq_zero.mpr hpt]
    simp [ht]

/-- Pairwise disjointness follows from every index lying in at most one
panorama. -/
theorem pairwise_disjoint_of_panCount (l : List (List ℕ))
    (h : ∀ d, panCount l d ≤ 1) :
    List.Pairwise (fun P Q => ∀ x, x ∈ P → x ∉ Q) l := by
  induction l with
  | nil => exact List.Pairwise.nil
  | cons P ps ih =>
    refine List.Pairwise.cons ?_ (ih ?_)
    · intro Q hQ x hxP hxQ
      have hpos : 0 < ps.countP (fun R => decide (x ∈ R)) :=
        List.countP_pos.mpr ⟨Q, hQ, by simpa using hxQ⟩
      have := h x
      rw [panCount, List.countP_cons] at this
      simp only [decide_eq_true_eq, hxP, if_true] at this
      omega
    · intro d
      have := h d
      rw [panCount, List.countP_cons] at this
      rw [panCount]
      omega

/-- C2: after `connect` processes any edge list over `n` datasets, every
dataset index below `n` lies in exactly one of the returned panoramas
(singleton when untouched by the edges), and the panoramas are pairwise
disjoint. -/
theorem connect_partition (al : List (ℕ × ℕ)) (n : ℕ) :
    (∀ d, d < n → panCount (connect al n) d = 1) ∧
      List.Pairwise (fun P Q => ∀ x, x ∈ P → x ∉ Q) (connect al n) := by
  obtain ⟨f1, f2, f3⟩ := connect_fold_invariant al [] (by simp) (by simp [panCount])
  have hsplit : ∀ d, panCount (connect al n) d
      = panCount (al.foldl (fun ps e => connectStep ps e.1 e.2) []) d
        + (if d < n ∧ touched al d = false then 1 else 0) := by
    intro d
    rw [connect, panCount, List.countP_append]
    rw [← panCount, ← panCount, panCount_singles]
  have hzero : ∀ d, touched al d = false →
      panCount (al.foldl (fun ps e => connectStep ps e.1 e.2) []) d = 0 := by
    intro d hf
    have hne1 : panCount (al.foldl (fun ps e => connectStep ps e.1 e.2) []) d ≠ 1 := by
      intro h1
      rcases (f3 d).mp h1 with h | h
      · simp [panCount] at h
      · rw [hf] at h
        exact Bool.false_ne_true h
    have := f2 d
    omega
  have htotal : ∀ d, d < n → panCount (connect al n) d = 1 := by
    intro d hdn
    rw [hsplit d]
    by_cases ht : touched al d = true
    · have h1 : panCount (al.foldl (fun ps e => connectStep ps e.1 e.2) []) d = 1 :=
        (f3 d).mpr (Or.inr ht)
      rw [h1]
      simp [ht]
    · have hf : touched al d = false := by
        cases h : touched al d
        · rfl
        · exact absurd h ht
      rw [hzero d hf, if_pos ⟨hdn, hf⟩]
  refine ⟨htotal, ?_⟩
  have hle : ∀ d, panCount (connect al n) d ≤ 1 := by
    intro d
    rw [hsplit d]
    by_cases ht : touched al d = true
    · have hcond : ¬ (d < n ∧ touched al d = false) := by
        rintro ⟨_, h2⟩
        rw [ht] at h2
        simp at h2
      rw [if_neg hcond]
      simpa using f2 d
    · have hf : touched al d = false := by
        cases h : touched al d
        · rfl
        · exact absurd h ht
      rw [hzero d hf]
      split <;> omega
  exact pairwise_disjoint_of_panCount _ hle

theorem connect_partition_witness :
    (0 : ℕ) < 3 ∧ panCount (connect [(0, 1)] 3) 0 = 1 :=
  ⟨by decide, (connect_partition [(0, 1)] 3).1 0 (by decide)⟩

end Scanorama
